import Mathlib

/-!
Verification of the PolyDoc document-processing core against its
natural-language specification.

The development shallowly embeds the two core modules:

* `src/core/document_processor.py` — the `DocumentProcessor` class:
  format dispatch (`process_document`), the per-format extractors
  (`_process_pdf`, `_process_docx`, `_process_pptx`, `_process_image`)
  and the script-counting language classifier (`_detect_language`).
* `src/models/ai_models.py` — the `AIModelManager` class: model loading
  with fallback flags (`_load_models`), chunked summarization
  (`summarize_text`), sliding-window question answering
  (`answer_question`), sentiment analysis (`analyze_sentiment`) and
  key-phrase extraction (`extract_key_phrases`).

Python strings are embedded as `List Char`; machine floats that only
ever hold exact decimal constants and exact ratios of small integers are
embedded as `ℚ`; Python exceptions are embedded as `Except`.  External
libraries (PyPDF2, python-docx, python-pptx, EasyOCR, the transformer
pipelines, sklearn's vectorizer) are inputs to the embedded functions:
their outputs — page texts, paragraphs, shapes, OCR records, per-chunk
summaries, per-window answers, tf-idf matrices — are parameters, so the
theorems quantify over every possible behaviour of those libraries.
Wall-clock fields (`processing_time`) are not modelled.
-/

namespace PolyDoc

/-! ## Text utilities (embedding Python `str` primitives on `List Char`) -/

/-- Python string literal to its character list. -/
def strL (s : String) : List Char := s.data

instance exceptDecEq {ε α : Type} [DecidableEq ε] [DecidableEq α] :
    DecidableEq (Except ε α) := fun a b =>
  match a, b with
  | .error e1, .error e2 => decidable_of_iff (e1 = e2) (by simp)
  | .ok v1, .ok v2 => decidable_of_iff (v1 = v2) (by simp)
  | .error _, .ok _ => isFalse (by simp)
  | .ok _, .error _ => isFalse (by simp)

/-- Python `str.strip()` (whitespace from both ends). -/
def trimL (l : List Char) : List Char :=
  ((l.dropWhile Char.isWhitespace).reverse.dropWhile Char.isWhitespace).reverse

/-- Python `text.split('\n\n')`: split on non-overlapping occurrences of
a double newline, leftmost first. -/
def splitNN : List Char → List (List Char)
  | [] => [[]]
  | '\n' :: '\n' :: rest => [] :: splitNN rest
  | c :: rest =>
    match splitNN rest with
    | [] => [[c]]
    | s :: ss => (c :: s) :: ss

/-- Embeds `re.split` on a character class: split at every character satisfying
`p` (a run of k separators yields k-1 empty pieces, which the callers
below discard, matching `re.split(r'[.!?]+', ...)` after blank
filtering). -/
def splitP (p : Char → Bool) : List Char → List (List Char)
  | [] => [[]]
  | c :: rest =>
    if p c then [] :: splitP p rest
    else
      match splitP p rest with
      | [] => [[c]]
      | s :: ss => (c :: s) :: ss

/-- Python `sep.join(parts)`. -/
def joinL (sep : List Char) (parts : List (List Char)) : List Char :=
  List.intercalate sep parts

/-- Python `s.lower()` (ASCII case folding, which covers every extension
string the dispatcher compares). -/
def lowerL (l : List Char) : List Char := l.map Char.toLower

/-! ## Language classifier — `DocumentProcessor._detect_language` -/

/-- Embeds `c.isascii() and c.isalpha()` for one character. -/
def isLatinChar (c : Char) : Bool := c.toNat ≤ 127 && c.isAlpha

/-- Embeds `'؀' <= c <= 'ۿ'`. -/
def isArabicChar (c : Char) : Bool := 0x0600 ≤ c.toNat && c.toNat ≤ 0x06FF

/-- Embeds `'ऀ' <= c <= 'ॿ'`. -/
def isHindiChar (c : Char) : Bool := 0x0900 ≤ c.toNat && c.toNat ≤ 0x097F

/-- Embeds `'一' <= c <= '鿿'`. -/
def isChineseChar (c : Char) : Bool := 0x4E00 ≤ c.toNat && c.toNat ≤ 0x9FFF

def latinCount (text : List Char) : Nat := text.countP isLatinChar

def arabicCount (text : List Char) : Nat := text.countP isArabicChar

def hindiCount (text : List Char) : Nat := text.countP isHindiChar

def chineseCount (text : List Char) : Nat := text.countP isChineseChar

def totalCount (text : List Char) : Nat :=
  latinCount text + arabicCount text + hindiCount text + chineseCount text

/-- Embeds `DocumentProcessor._detect_language`.  The float test
`count / total > 0.3` is embedded as the exact equivalent
`3 * total < 10 * count` (both sides are exact ratios of machine-sized
integers, far from any double rounding boundary). -/
def detect_language (text : List Char) : String :=
  if text = [] then "unknown"
  else
    if totalCount text = 0 then "unknown"
    else if 3 * totalCount text < 10 * arabicCount text then "ar"
    else if 3 * totalCount text < 10 * hindiCount text then "hi"
    else if 3 * totalCount text < 10 * chineseCount text then "zh"
    else "en"

/-- The classifier as the specification words it (spec § 4.1): count the
four ranges; total 0 → `"unknown"`; otherwise compare each range's
*share of the counted total* against the constant 3/10, in the fixed
priority order ar, hi, zh, defaulting to en. -/
def detect_language_spec (text : List Char) : String :=
  if totalCount text = 0 then "unknown"
  else if (3 : ℚ) / 10 < (arabicCount text : ℚ) / (totalCount text : ℚ) then "ar"
  else if (3 : ℚ) / 10 < (hindiCount text : ℚ) / (totalCount text : ℚ) then "hi"
  else if (3 : ℚ) / 10 < (chineseCount text : ℚ) / (totalCount text : ℚ) then "zh"
  else "en"

lemma share_gt_iff (a t : Nat) (ht : t ≠ 0) :
    ((3 : ℚ) / 10 < (a : ℚ) / (t : ℚ)) ↔ 3 * t < 10 * a := by
  rw [div_lt_div_iff₀ (by norm_num) (by exact_mod_cast Nat.pos_of_ne_zero ht)]
  constructor
  · intro h
    have : (3 * t : ℚ) < 10 * a := by linarith
    exact_mod_cast this
  · intro h
    have : (3 * t : ℚ) < 10 * a := by exact_mod_cast h
    push_cast at this ⊢
    linarith

lemma totalCount_nil : totalCount [] = 0 := by
  simp [totalCount, latinCount, arabicCount, hindiCount, chineseCount]

lemma whitespace_counts (text : List Char) (hw : ∀ c ∈ text, c.isWhitespace) :
    totalCount text = 0 := by
  have hz : ∀ (p : Char → Bool), (∀ c, c.isWhitespace = true → p c = false) →
      text.countP p = 0 := by
    intro p hp
    rw [List.countP_eq_zero]
    intro c hc
    simp [hp c (hw c hc)]
  have hws : ∀ c : Char, c.isWhitespace = true →
      (isLatinChar c = false ∧ isArabicChar c = false ∧
        isHindiChar c = false ∧ isChineseChar c = false) := by
    intro c hc
    simp only [Char.isWhitespace, Bool.or_eq_true, decide_eq_true_eq] at hc
    rcases hc with ((h | h) | h) | h <;> subst h <;>
      exact ⟨by decide, by decide, by decide, by decide⟩
  simp only [totalCount, latinCount, arabicCount, hindiCount, chineseCount]
  rw [hz isLatinChar (fun c hc => (hws c hc).1),
    hz isArabicChar (fun c hc => (hws c hc).2.1),
    hz isHindiChar (fun c hc => (hws c hc).2.2.1),
    hz isChineseChar (fun c hc => (hws c hc).2.2.2)]

/-- C1. The language classifier is deterministic (it is a pure
function of the input string) and implements exactly the specified
algorithm: it agrees with `detect_language_spec` — the share-based,
priority-ordered algorithm written from the spec's words — on every
input, and whitespace-only (in particular empty) input yields
`"unknown"`. -/
theorem detect_language_matches_spec (text : List Char) :
    detect_language text = detect_language_spec text ∧
      ((∀ c ∈ text, c.isWhitespace) → detect_language text = "unknown") := by
  constructor
  · by_cases hnil : text = []
    · subst hnil
      simp [detect_language, detect_language_spec, totalCount_nil]
    · by_cases ht : totalCount text = 0
      · simp [detect_language, detect_language_spec, hnil, ht]
      · have ha := share_gt_iff (arabicCount text) (totalCount text) ht
        have hh := share_gt_iff (hindiCount text) (totalCount text) ht
        have hc := share_gt_iff (chineseCount text) (totalCount text) ht
        simp only [detect_language, detect_language_spec, if_neg hnil, if_neg ht,
          ha, hh, hc]
  · intro hw
    have ht := whitespace_counts text hw
    by_cases hnil : text = []
    · simp [detect_language, hnil]
    · simp [detect_language, hnil, ht]

/-- Witness for C1: the concrete whitespace-only input `"  "` is
classified `"unknown"`, and the classifier agrees with the spec
algorithm there. -/
theorem detect_language_matches_spec_witness :
    detect_language [' ', ' '] = "unknown" :=
  (detect_language_matches_spec [' ', ' ']).2 (by decide)

/-! ## Document processor data model (`document_processor.py` dataclasses) -/

/-- The `DocumentElement` dataclass.  `bbox` is `(x1, y1, x2, y2)`;
`font_info` keeps the one key the source ever stores (the style name). -/
structure DocumentElement where
  text : List Char
  page_number : Nat
  element_type : String
  bbox : ℚ × ℚ × ℚ × ℚ
  confidence : ℚ
  language : Option String := none
  font_info : Option (List Char) := none
  deriving DecidableEq

/-- The `metadata` dict built by every extractor: `{'file_type': ..., 'size': ...}`. -/
structure DocMetadata where
  file_type : String
  size : Nat
  deriving DecidableEq

/-- The `ProcessedDocument` dataclass. -/
structure ProcessedDocument where
  filename : List Char
  total_pages : Nat
  elements : List DocumentElement
  summary : Option (List Char) := none
  metadata : DocMetadata
  deriving DecidableEq

/-! ## Format extractors

Each extractor takes what the corresponding Python library hands the
source code: PyPDF2 page texts (where `page.extract_text()` may raise,
hence `Except`), python-docx paragraphs and tables, python-pptx shapes,
EasyOCR records. -/

/-- One python-docx paragraph: its `text` and its `style.name`. -/
structure DocxParagraph where
  text : List Char
  style : List Char
  deriving DecidableEq

/-- One python-pptx shape: `hasText` embeds `hasattr(shape, 'text')`. -/
structure PptxShape where
  hasText : Bool
  text : List Char
  left : ℚ
  top : ℚ
  width : ℚ
  height : ℚ
  deriving DecidableEq

/-- One EasyOCR detection: a non-empty polygon, the text and the engine
confidence. -/
structure OcrRecord where
  firstPoint : ℚ × ℚ
  morePoints : List (ℚ × ℚ)
  text : List Char
  confidence : ℚ
  deriving DecidableEq

/-- Embeds the `_process_pdf` inner list comprehension:
`[p.strip() for p in text_content.split('\n\n') if p.strip()]`. -/
def pdfParagraphs (text : List Char) : List (List Char) :=
  ((splitNN text).map trimL).filter (fun p => p ≠ [])

/-- The elements `_process_pdf` builds for one page (guarded by
`if text_content.strip():`). -/
def pdfPageElements (pageNum : Nat) (text : List Char) : List DocumentElement :=
  if trimL text ≠ [] then
    (pdfParagraphs text).enum.map (fun pi =>
      { text := pi.2
        page_number := pageNum
        element_type := "paragraph"
        bbox := (0, (pi.1 : ℚ) * 50, 500, ((pi.1 : ℚ) + 1) * 50)
        confidence := 9 / 10
        language := some (detect_language pi.2) })
  else []

/-- The page loop of `_process_pdf`: pages are decoded in order with no
per-page exception handling, so the first failing `extract_text` aborts
the whole loop. -/
def pdfElementsFrom : List (Except (List Char) (List Char)) → Nat →
    Except (List Char) (List DocumentElement)
  | [], _ => .ok []
  | p :: ps, n =>
    match p with
    | .error e => .error e
    | .ok text =>
      match pdfElementsFrom ps (n + 1) with
      | .error e => .error e
      | .ok rest => .ok (pdfPageElements n text ++ rest)

/-- Embeds `DocumentProcessor._process_pdf`. -/
def process_pdf (filename : List Char) (pages : List (Except (List Char) (List Char)))
    (size : Nat) : Except (List Char) ProcessedDocument :=
  match pdfElementsFrom pages 1 with
  | .error e => .error e
  | .ok els =>
    .ok { filename := filename, total_pages := pages.length, elements := els
          metadata := ⟨"pdf", size⟩ }

/-- Paragraph loop of `_process_docx` (`enumerate` keeps the index of
skipped blank paragraphs for the bbox bands). -/
def docxParaElements (paras : List DocxParagraph) : List DocumentElement :=
  paras.enum.filterMap (fun ip =>
    if trimL ip.2.text ≠ [] then
      some { text := ip.2.text
             page_number := 1
             element_type :=
               if (strL "Heading").isPrefixOf ip.2.style then "heading" else "paragraph"
             bbox := (0, (ip.1 : ℚ) * 30, 500, ((ip.1 : ℚ) + 1) * 30)
             confidence := 1
             language := some (detect_language ip.2.text)
             font_info := some ip.2.style }
    else none)

/-- Embeds the `[' | '.join(cell.text for cell in row.cells) ...]` row serialization. -/
def docxTableText (rows : List (List (List Char))) : List (List Char) :=
  rows.map (fun row => joinL (strL " | ") row)

/-- Table loop of `_process_docx`: the guard `if table_text:` tests the
row *list*, not the serialized text. -/
def docxTableElements (tables : List (List (List (List Char)))) : List DocumentElement :=
  tables.enum.filterMap (fun it =>
    let table_text := docxTableText it.2
    if table_text ≠ [] then
      some { text := joinL (strL "\n") table_text
             page_number := 1
             element_type := "table"
             bbox := (0, 1000 + (it.1 : ℚ) * 100, 500, 1000 + ((it.1 : ℚ) + 1) * 100)
             confidence := 1
             language := some (detect_language (joinL (strL " ") table_text)) }
    else none)

/-- Embeds `DocumentProcessor._process_docx`. -/
def process_docx (filename : List Char) (paras : List DocxParagraph)
    (tables : List (List (List (List Char)))) (size : Nat) : ProcessedDocument :=
  { filename := filename, total_pages := 1
    elements := docxParaElements paras ++ docxTableElements tables
    metadata := ⟨"docx", size⟩ }

/-- Python `str.isupper()`: at least one cased character and no
lowercase cased character (ASCII model). -/
def pyIsUpper (l : List Char) : Bool :=
  l.any (fun c => c.isUpper || c.isLower) && l.all (fun c => !c.isLower)

/-- Shape loop of `_process_pptx` for one slide. -/
def pptxSlideElements (slideNum : Nat) (shapes : List PptxShape) : List DocumentElement :=
  shapes.filterMap (fun sh =>
    if sh.hasText = true ∧ trimL sh.text ≠ [] then
      some { text := sh.text
             page_number := slideNum
             element_type :=
               if pyIsUpper sh.text = true ∨ sh.text.length < 50 then "heading"
               else "paragraph"
             bbox := (sh.left, sh.top, sh.left + sh.width, sh.top + sh.height)
             confidence := 1
             language := some (detect_language sh.text) }
    else none)

/-- Embeds `DocumentProcessor._process_pptx` (slides enumerated from 1). -/
def process_pptx (filename : List Char) (slides : List (List PptxShape))
    (size : Nat) : ProcessedDocument :=
  { filename := filename, total_pages := slides.length
    elements := (slides.enum.map (fun iss => pptxSlideElements (iss.1 + 1) iss.2)).flatten
    metadata := ⟨"pptx", size⟩ }

/-- Axis-aligned envelope of the OCR polygon
(`min/max` over the coordinate lists). -/
def ocrBBox (r : OcrRecord) : ℚ × ℚ × ℚ × ℚ :=
  let xs := r.morePoints.map Prod.fst
  let ys := r.morePoints.map Prod.snd
  (xs.foldl min r.firstPoint.1, ys.foldl min r.firstPoint.2,
   xs.foldl max r.firstPoint.1, ys.foldl max r.firstPoint.2)

/-- OCR result loop of `_process_image`: keep results with
`confidence > 0.5` and non-blank text; `handwriting` below 0.8. -/
def imageElements (ocr : List OcrRecord) : List DocumentElement :=
  ocr.filterMap (fun r =>
    if 1 / 2 < r.confidence ∧ trimL r.text ≠ [] then
      some { text := r.text
             page_number := 1
             element_type := if r.confidence < 4 / 5 then "handwriting" else "text"
             bbox := ocrBBox r
             confidence := r.confidence
             language := some (detect_language r.text) }
    else none)

/-- Embeds `DocumentProcessor._process_image` (`loaded = false` models
`cv2.imread` returning `None`, which the source turns into a
`ValueError`). -/
def process_image (filename : List Char) (loaded : Bool) (ocr : List OcrRecord)
    (size : Nat) : Except (List Char) ProcessedDocument :=
  if loaded = false then .error (strL "Could not load image")
  else
    .ok { filename := filename, total_pages := 1, elements := imageElements ocr
          metadata := ⟨"image", size⟩ }

/-! ## Dispatch — `DocumentProcessor.process_document` -/

/-- What one path's file decodes to, as handed over by the format
libraries.  A file whose suffix promises one format but whose bytes
parse as another makes the format library raise, which
`process_document` re-raises; that is the mismatch arm of the dispatch
below. -/
inductive FileContent where
  | pdf (pages : List (Except (List Char) (List Char)))
  | docx (paras : List DocxParagraph) (tables : List (List (List (List Char))))
  | pptx (slides : List (List PptxShape))
  | image (loaded : Bool) (ocr : List OcrRecord)

/-- One input path: whether it exists, its `Path.suffix`, `stat` size
and decoded content. -/
structure InputFile where
  name : List Char
  present : Bool
  suffix : List Char
  size : Nat
  content : FileContent

/-- The errors `process_document` surfaces: `FileNotFoundError`,
`ValueError("Unsupported format: ...")` and any re-raised extraction
failure. -/
inductive ProcError where
  | notFound (path : List Char)
  | unsupported (suffix : List Char)
  | extraction (msg : List Char)
  deriving DecidableEq

/-- Embeds `self.supported_formats`. -/
def supported_formats : List (List Char) :=
  [strL ".pdf", strL ".docx", strL ".pptx", strL ".png", strL ".jpg",
   strL ".jpeg", strL ".tiff", strL ".bmp"]

/-- The plain-text extension the spec's allow-list sentence adds
("plus plain-text variants"); used only to state claim C4 as written. -/
def claimed_plain_text_variants : List (List Char) := [strL ".txt"]

/-- Embeds `DocumentProcessor.process_document`. -/
def process_document (file : InputFile) : Except ProcError ProcessedDocument :=
  if file.present = false then .error (.notFound file.name)
  else if lowerL file.suffix ∉ supported_formats then .error (.unsupported file.suffix)
  else if lowerL file.suffix = strL ".pdf" then
    match file.content with
    | .pdf pages => (process_pdf file.name pages file.size).mapError ProcError.extraction
    | _ => .error (.extraction (strL "format library failure"))
  else if lowerL file.suffix = strL ".docx" then
    match file.content with
    | .docx paras tables => .ok (process_docx file.name paras tables file.size)
    | _ => .error (.extraction (strL "format library failure"))
  else if lowerL file.suffix = strL ".pptx" then
    match file.content with
    | .pptx slides => .ok (process_pptx file.name slides file.size)
    | _ => .error (.extraction (strL "format library failure"))
  else
    match file.content with
    | .image loaded ocr => (process_image file.name loaded ocr file.size).mapError ProcError.extraction
    | _ => .error (.extraction (strL "format library failure"))

/-! ## Supporting lemmas about the extractors -/

lemma mem_dropWhile_of_not {p : Char → Bool} {c : Char} {l : List Char}
    (hc : c ∈ l) (hp : p c = false) : c ∈ l.dropWhile p := by
  have hsplit := List.takeWhile_append_dropWhile p l
  rw [← hsplit] at hc
  rcases List.mem_append.mp hc with h | h
  · exact absurd (List.mem_takeWhile_imp h) (by simp [hp])
  · exact h

lemma trimL_eq_nil_iff (l : List Char) :
    trimL l = [] ↔ ∀ c ∈ l, c.isWhitespace := by
  unfold trimL
  rw [List.reverse_eq_nil_iff, List.dropWhile_eq_nil_iff]
  constructor
  · intro h c hc
    by_cases hw : c.isWhitespace
    · exact hw
    · have h1 : c ∈ l.dropWhile Char.isWhitespace :=
        mem_dropWhile_of_not hc (by simpa using hw)
      exact absurd (h c (List.mem_reverse.mpr h1)) hw
  · intro h c hc
    exact h c ((List.dropWhile_sublist _).subset (List.mem_reverse.mp hc))

lemma trimL_trimL_ne_nil {l : List Char} (h : trimL l ≠ []) : trimL (trimL l) ≠ [] := by
  rw [Ne, trimL_eq_nil_iff] at h ⊢
  push_neg at h ⊢
  obtain ⟨c, hcl, hcw⟩ := h
  refine ⟨c, ?_, hcw⟩
  unfold trimL
  rw [List.mem_reverse]
  refine mem_dropWhile_of_not ?_ (by simpa using hcw)
  rw [List.mem_reverse]
  exact mem_dropWhile_of_not hcl (by simpa using hcw)

lemma pdfParagraphs_mem {text p : List Char} (hp : p ∈ pdfParagraphs text) :
    trimL p ≠ [] := by
  unfold pdfParagraphs at hp
  rw [List.mem_filter] at hp
  obtain ⟨hmem, hne⟩ := hp
  rw [List.mem_map] at hmem
  obtain ⟨q, _, rfl⟩ := hmem
  exact trimL_trimL_ne_nil (by simpa using hne)

lemma pdfPageElements_mem {n : Nat} {text : List Char} {e : DocumentElement}
    (he : e ∈ pdfPageElements n text) :
    e.confidence = 9 / 10 ∧ trimL e.text ≠ [] ∧ e.element_type = "paragraph" := by
  unfold pdfPageElements at he
  by_cases h : trimL text ≠ []
  · rw [if_pos h] at he
    rw [List.mem_map] at he
    obtain ⟨pi, hpi, rfl⟩ := he
    exact ⟨rfl, pdfParagraphs_mem (List.snd_mem_of_mem_enum hpi), rfl⟩
  · rw [if_neg h] at he
    exact absurd he (List.not_mem_nil e)

lemma pdfElementsFrom_ok_mem :
    ∀ (pages : List (Except (List Char) (List Char))) (n : Nat)
      (els : List DocumentElement), pdfElementsFrom pages n = .ok els →
      ∀ e ∈ els, ∃ m t, e ∈ pdfPageElements m t := by
  intro pages
  induction pages with
  | nil =>
    intro n els h e he
    simp only [pdfElementsFrom, Except.ok.injEq] at h
    subst h
    exact absurd he (List.not_mem_nil e)
  | cons p ps ih =>
    intro n els h e he
    unfold pdfElementsFrom at h
    cases p with
    | error msg => exact absurd h (by simp)
    | ok text =>
      cases hrec : pdfElementsFrom ps (n + 1) with
      | error msg => rw [hrec] at h; exact absurd h (by simp)
      | ok rest =>
        rw [hrec] at h
        simp only [Except.ok.injEq] at h
        subst h
        rcases List.mem_append.mp he with hl | hr
        · exact ⟨n, text, hl⟩
        · exact ih (n + 1) rest hrec e hr

lemma pdfElementsFrom_isOk_iff :
    ∀ (pages : List (Except (List Char) (List Char))) (n : Nat),
      (∃ els, pdfElementsFrom pages n = .ok els) ↔ ∀ p ∈ pages, ∃ t, p = .ok t := by
  intro pages
  induction pages with
  | nil =>
    intro n
    simp [pdfElementsFrom]
  | cons p ps ih =>
    intro n
    constructor
    · rintro ⟨els, h⟩
      unfold pdfElementsFrom at h
      cases p with
      | error msg => exact absurd h (by simp)
      | ok text =>
        cases hrec : pdfElementsFrom ps (n + 1) with
        | error msg => rw [hrec] at h; exact absurd h (by simp)
        | ok rest =>
          intro q hq
          rcases List.mem_cons.mp hq with rfl | hq'
          · exact ⟨text, rfl⟩
          · exact ((ih (n + 1)).mp ⟨rest, hrec⟩) q hq'
    · intro hall
      obtain ⟨t, ht⟩ := hall p (List.mem_cons_self p ps)
      subst ht
      obtain ⟨rest, hrest⟩ := (ih (n + 1)).mpr (fun q hq => hall q (List.mem_cons_of_mem _ hq))
      exact ⟨pdfPageElements n t ++ rest, by unfold pdfElementsFrom; rw [hrest]⟩

lemma pdfElementsFrom_first_error (m : List Char)
    (qs : List (Except (List Char) (List Char))) :
    ∀ (ps : List (Except (List Char) (List Char))) (n : Nat),
      (∀ p ∈ ps, ∃ t, p = Except.ok t) →
      pdfElementsFrom (ps ++ Except.error m :: qs) n = .error m := by
  intro ps
  induction ps with
  | nil => intro n _; rfl
  | cons p ps' ih =>
    intro n hall
    obtain ⟨t, ht⟩ := hall p (List.mem_cons_self p ps')
    subst ht
    have hrec := ih (n + 1) (fun q hq => hall q (List.mem_cons_of_mem _ hq))
    have hstep : pdfElementsFrom (Except.ok t :: (ps' ++ Except.error m :: qs)) n =
        match pdfElementsFrom (ps' ++ Except.error m :: qs) (n + 1) with
        | .error e => .error e
        | .ok rest => .ok (pdfPageElements n t ++ rest) := rfl
    rw [List.cons_append, hstep, hrec]

lemma docxParaElements_mem {paras : List DocxParagraph} {e : DocumentElement}
    (he : e ∈ docxParaElements paras) :
    e.confidence = 1 ∧ trimL e.text ≠ [] ∧ e.element_type ≠ "table" := by
  unfold docxParaElements at he
  rw [List.mem_filterMap] at he
  obtain ⟨ip, _, hsome⟩ := he
  by_cases h : trimL ip.2.text ≠ []
  · rw [if_pos h] at hsome
    cases hsome
    refine ⟨rfl, h, ?_⟩
    by_cases hh : (strL "Heading").isPrefixOf ip.2.style <;> simp [hh]
  · rw [if_neg h] at hsome
    exact absurd hsome (by simp)

lemma docxTableElements_mem {tables : List (List (List (List Char)))} {e : DocumentElement}
    (he : e ∈ docxTableElements tables) :
    e.confidence = 1 ∧ e.element_type = "table" := by
  unfold docxTableElements at he
  rw [List.mem_filterMap] at he
  obtain ⟨it, _, hsome⟩ := he
  by_cases h : docxTableText it.2 ≠ []
  · simp only [if_pos h] at hsome
    cases hsome
    exact ⟨rfl, rfl⟩
  · simp only [if_neg h] at hsome
    exact absurd hsome (by simp)

lemma pptxSlideElements_mem {n : Nat} {shapes : List PptxShape} {e : DocumentElement}
    (he : e ∈ pptxSlideElements n shapes) :
    e.confidence = 1 ∧ trimL e.text ≠ [] := by
  unfold pptxSlideElements at he
  rw [List.mem_filterMap] at he
  obtain ⟨sh, _, hsome⟩ := he
  by_cases h : sh.hasText = true ∧ trimL sh.text ≠ []
  · rw [if_pos h] at hsome
    cases hsome
    exact ⟨rfl, h.2⟩
  · rw [if_neg h] at hsome
    exact absurd hsome (by simp)

lemma process_pptx_mem {fname : List Char} {slides : List (List PptxShape)} {size : Nat}
    {e : DocumentElement} (he : e ∈ (process_pptx fname slides size).elements) :
    e.confidence = 1 ∧ trimL e.text ≠ [] := by
  unfold process_pptx at he
  simp only [List.mem_flatten, List.mem_map] at he
  obtain ⟨l, ⟨iss, _, rfl⟩, hel⟩ := he
  exact pptxSlideElements_mem hel

lemma imageElements_mem {ocr : List OcrRecord} {e : DocumentElement}
    (he : e ∈ imageElements ocr) :
    (∃ r ∈ ocr, e.confidence = r.confidence ∧ 1 / 2 < r.confidence) ∧ trimL e.text ≠ [] := by
  unfold imageElements at he
  rw [List.mem_filterMap] at he
  obtain ⟨r, hr, hsome⟩ := he
  by_cases h : 1 / 2 < r.confidence ∧ trimL r.text ≠ []
  · rw [if_pos h] at hsome
    cases hsome
    exact ⟨⟨r, hr, rfl, h.1⟩, h.2⟩
  · rw [if_neg h] at hsome
    exact absurd hsome (by simp)

lemma mapError_extraction_shape (e : Except (List Char) ProcessedDocument) :
    (∃ doc, e.mapError ProcError.extraction = .ok doc) ∨
    (∃ m, e.mapError ProcError.extraction = .error (.extraction m)) := by
  cases e with
  | error m => exact Or.inr ⟨m, rfl⟩
  | ok doc => exact Or.inl ⟨doc, rfl⟩

lemma process_document_dispatch (file : InputFile) (hp : file.present = true)
    (hs : lowerL file.suffix ∈ supported_formats) :
    (∃ doc, process_document file = .ok doc) ∨
    (∃ m, process_document file = .error (.extraction m)) := by
  unfold process_document
  rw [if_neg (by simp [hp]), if_neg (by simpa using hs)]
  rcases hfc : file.content with pages | ⟨paras, tables⟩ | slides | ⟨loaded, ocr⟩ <;>
    split_ifs <;>
    first
      | exact mapError_extraction_shape _
      | exact Or.inl ⟨_, rfl⟩
      | exact Or.inr ⟨_, rfl⟩

/-- Counterexample to C4 as stated: the spec's allow-list sentence adds
"plus plain-text variants", but an existing `.txt` file is rejected with
the unsupported-format error — the dispatcher's allow-list has no
plain-text entry. -/
theorem process_document_rejects_plain_text :
    lowerL (strL ".txt") ∈ supported_formats ++ claimed_plain_text_variants ∧
    process_document ⟨strL "note.txt", true, strL ".txt", 0, .pdf []⟩ =
      .error (.unsupported (strL ".txt")) := by
  exact ⟨by decide, rfl⟩

/-- C4 (amended). `process_document` fails with the not-found error
exactly when the path does not exist, and with the unsupported-format
error exactly when the path exists but its extension, lowercased, is not
in the fixed allow-list `.pdf .docx .pptx .png .jpg .jpeg .tiff .bmp` —
which contains no plain-text variants.  (Failures return `Except.error`,
so no `ProcessedDocument` is produced on any failure.) -/
theorem process_document_error_characterization (file : InputFile) :
    ((∃ p, process_document file = .error (.notFound p)) ↔ file.present = false) ∧
    ((∃ s, process_document file = .error (.unsupported s)) ↔
      file.present = true ∧ lowerL file.suffix ∉ supported_formats) := by
  by_cases hp : file.present = false
  · have hres : process_document file = .error (.notFound file.name) := by
      unfold process_document
      rw [if_pos hp]
    rw [hres]
    constructor
    · simp [hp]
    · simp [hp]
  · have hp' : file.present = true := by
      cases h : file.present
      · exact absurd h hp
      · rfl
    by_cases hs : lowerL file.suffix ∈ supported_formats
    · rcases process_document_dispatch file hp' hs with ⟨doc, hd⟩ | ⟨m, hm⟩
      · rw [hd]
        constructor
        · simp [hp]
        · simp [hs]
      · rw [hm]
        constructor
        · simp [hp]
        · simp [hs]
    · have hres : process_document file = .error (.unsupported file.suffix) := by
        unfold process_document
        rw [if_neg (by simp [hp']), if_pos (by simpa using hs)]
      rw [hres]
      constructor
      · simp [hp]
      · simp [hp', hs]

/-- Witness for C4: a present `.PDF` file (uppercase suffix) is accepted
by the case-insensitive allow-list test, so neither error fires. -/
theorem process_document_error_characterization_witness :
    ¬ (∃ s, process_document ⟨strL "a.PDF", true, strL ".PDF", 0, .pdf []⟩ =
        .error (.unsupported s)) := by
  have h := (process_document_error_characterization
    ⟨strL "a.PDF", true, strL ".PDF", 0, .pdf []⟩).2
  intro hex
  exact absurd ((h.mp hex).2) (by decide)

/-- Counterexample to C5 as stated: a PDF whose first page raises while
its second page decodes fine.  The claimed behaviour is that only the
failing page is skipped; the code instead aborts the whole document and
re-raises, so no document is produced from the surviving page. -/
theorem pdf_unit_failure_aborts :
    process_document ⟨strL "d.pdf", true, strL ".pdf", 0,
        .pdf [Except.error (strL "bad page"), Except.ok (strL "Hello")]⟩ =
      .error (.extraction (strL "bad page")) := rfl

/-- C5 (amended). There is no per-unit error containment in PDF
extraction: `process_pdf` succeeds exactly when every page's
`extract_text` succeeds, and the first failing page aborts the whole
extraction with that page's error (the surviving pages contribute
nothing).  Only pages whose extracted text is blank are skipped. -/
theorem pdf_unit_error_propagates (fname m : List Char) (size : Nat)
    (qs : List (Except (List Char) (List Char))) :
    (∀ pages, (∃ doc, process_pdf fname pages size = .ok doc) ↔
      ∀ p ∈ pages, ∃ t, p = .ok t) ∧
    (∀ ps, (∀ p ∈ ps, ∃ t, p = Except.ok t) →
      process_pdf fname (ps ++ Except.error m :: qs) size = .error m) := by
  constructor
  · intro pages
    rw [← pdfElementsFrom_isOk_iff pages 1]
    constructor
    · rintro ⟨doc, hdoc⟩
      unfold process_pdf at hdoc
      cases hels : pdfElementsFrom pages 1 with
      | error msg => rw [hels] at hdoc; exact absurd hdoc (by simp)
      | ok els => exact ⟨els, rfl⟩
    · rintro ⟨els, hels⟩
      exact ⟨_, by unfold process_pdf; rw [hels]⟩
  · intro ps hall
    unfold process_pdf
    rw [pdfElementsFrom_first_error m qs ps 1 hall]

/-- Witness for C5 (amended): a good page followed by a failing page
aborts with the failing page's error. -/
theorem pdf_unit_error_propagates_witness :
    process_pdf (strL "d.pdf") [Except.ok (strL "Hi"), Except.error (strL "bad")] 0 =
      .error (strL "bad") := by
  have h := (pdf_unit_error_propagates (strL "d.pdf") (strL "bad") 0 []).2
    [Except.ok (strL "Hi")]
    (by intro p hp; rw [List.mem_singleton] at hp; exact ⟨strL "Hi", hp⟩)
  simpa using h

/-- Counterexample to C7 as stated: a PDF page with text yields an
element whose confidence is 0.9, not the claimed 1.0. -/
theorem pdf_element_confidence_not_one :
    (process_pdf (strL "a.pdf") [Except.ok (strL "Hello")] 0).map
        (fun d => d.elements.map (fun e => e.confidence)) = Except.ok [9 / 10] ∧
    (9 / 10 : ℚ) ≠ 1 :=
  ⟨rfl, by norm_num⟩

/-- C7 (amended). DOCX and PPTX elements carry confidence exactly
1.0; PDF elements carry the hard-coded confidence 0.9; and only
image-derived (OCR) elements carry the engine score (which the filter
keeps only above 0.5). -/
theorem text_native_confidence_values :
    (∀ fname pages size doc, process_pdf fname pages size = .ok doc →
      ∀ e ∈ doc.elements, e.confidence = 9 / 10) ∧
    (∀ fname paras tables size,
      ∀ e ∈ (process_docx fname paras tables size).elements, e.confidence = 1) ∧
    (∀ fname slides size,
      ∀ e ∈ (process_pptx fname slides size).elements, e.confidence = 1) ∧
    (∀ fname loaded ocr size doc, process_image fname loaded ocr size = .ok doc →
      ∀ e ∈ doc.elements, ∃ r ∈ ocr, e.confidence = r.confidence ∧ 1 / 2 < r.confidence) := by
  refine ⟨?_, ?_, ?_, ?_⟩
  · intro fname pages size doc hdoc e he
    unfold process_pdf at hdoc
    cases hels : pdfElementsFrom pages 1 with
    | error msg => rw [hels] at hdoc; exact absurd hdoc (by simp)
    | ok els =>
      rw [hels] at hdoc
      simp only [Except.ok.injEq] at hdoc
      subst hdoc
      obtain ⟨m, t, hmem⟩ := pdfElementsFrom_ok_mem pages 1 els hels e he
      exact (pdfPageElements_mem hmem).1
  · intro fname paras tables size e he
    rcases List.mem_append.mp he with h | h
    · exact (docxParaElements_mem h).1
    · exact (docxTableElements_mem h).1
  · intro fname slides size e he
    exact (process_pptx_mem he).1
  · intro fname loaded ocr size doc hdoc e he
    unfold process_image at hdoc
    by_cases hl : loaded = false
    · rw [if_pos hl] at hdoc; exact absurd hdoc (by simp)
    · rw [if_neg hl] at hdoc
      simp only [Except.ok.injEq] at hdoc
      subst hdoc
      exact (imageElements_mem he).1

/-- Boolean check that every element of a document carries the given
confidence; used by concrete witnesses. -/
def allConfidence (q : ℚ) (d : ProcessedDocument) : Bool :=
  d.elements.all (fun e => e.confidence == q)

/-- Witness for C7 (amended): every element of a concrete one-paragraph
DOCX carries confidence 1. -/
theorem text_native_confidence_values_witness :
    allConfidence 1 (process_docx (strL "w.docx") [⟨strL "Hi", strL "Normal"⟩] [] 0) = true := by
  rw [allConfidence, List.all_eq_true]
  intro e he
  exact beq_iff_eq.mpr
    (text_native_confidence_values.2.1 (strL "w.docx") [⟨strL "Hi", strL "Normal"⟩] [] 0 e he)

/-- Counterexample to C8 as stated: a DOCX containing one table whose
single row holds a single empty cell produces an element whose text is
empty after trimming (the guard `if table_text:` tests the row list,
never the serialized text). -/
theorem docx_table_element_blank :
    ∃ doc, process_document ⟨strL "t.docx", true, strL ".docx", 0, .docx [] [[[[]]]]⟩ =
        .ok doc ∧ ∃ e ∈ doc.elements, trimL e.text = [] := by
  refine ⟨_, rfl, ?_⟩
  decide

/-- C8 (amended). Every element produced by the extractors has text
that is non-empty after trimming, except DOCX `table` elements, which
can be blank (their emptiness guard tests the row list, not the text):
PDF, PPTX and image elements are always non-blank, and every blank DOCX
element is a `table` element. -/
theorem element_text_nonblank :
    (∀ fname pages size doc, process_pdf fname pages size = .ok doc →
      ∀ e ∈ doc.elements, trimL e.text ≠ []) ∧
    (∀ fname paras tables size,
      ∀ e ∈ (process_docx fname paras tables size).elements,
        e.element_type = "table" ∨ trimL e.text ≠ []) ∧
    (∀ fname slides size,
      ∀ e ∈ (process_pptx fname slides size).elements, trimL e.text ≠ []) ∧
    (∀ fname loaded ocr size doc, process_image fname loaded ocr size = .ok doc →
      ∀ e ∈ doc.elements, trimL e.text ≠ []) := by
  refine ⟨?_, ?_, ?_, ?_⟩
  · intro fname pages size doc hdoc e he
    unfold process_pdf at hdoc
    cases hels : pdfElementsFrom pages 1 with
    | error msg => rw [hels] at hdoc; exact absurd hdoc (by simp)
    | ok els =>
      rw [hels] at hdoc
      simp only [Except.ok.injEq] at hdoc
      subst hdoc
      obtain ⟨m, t, hmem⟩ := pdfElementsFrom_ok_mem pages 1 els hels e he
      exact (pdfPageElements_mem hmem).2.1
  · intro fname paras tables size e he
    rcases List.mem_append.mp he with h | h
    · exact Or.inr (docxParaElements_mem h).2.1
    · exact Or.inl (docxTableElements_mem h).2
  · intro fname slides size e he
    exact (process_pptx_mem he).2
  · intro fname loaded ocr size doc hdoc e he
    unfold process_image at hdoc
    by_cases hl : loaded = false
    · rw [if_pos hl] at hdoc; exact absurd hdoc (by simp)
    · rw [if_neg hl] at hdoc
      simp only [Except.ok.injEq] at hdoc
      subst hdoc
      exact (imageElements_mem he).2

/-- Boolean check that every element of a document is a table element or
has non-blank text; used by concrete witnesses. -/
def allNonblankOrTable (d : ProcessedDocument) : Bool :=
  d.elements.all (fun e => e.element_type == "table" || !(trimL e.text == []))

/-- Witness for C8 (amended): every element of a concrete one-paragraph
DOCX is a table element or non-blank (here: the paragraph is non-blank). -/
theorem element_text_nonblank_witness :
    allNonblankOrTable (process_docx (strL "w.docx") [⟨strL "Hi", strL "Normal"⟩] [] 0) = true := by
  rw [allNonblankOrTable, List.all_eq_true]
  intro e he
  rcases element_text_nonblank.2.1 (strL "w.docx") [⟨strL "Hi", strL "Normal"⟩] [] 0 e he with
    h | h <;> simp [h]

/-! ## AI model layer (`ai_models.py`) -/

/-- The metadata dict keys the source ever writes on a `ModelResponse`
(a key absent from a given response is `none`). -/
structure Metadata where
  fallback : Option Bool := none
  language : Option String := none
  question : Option (List Char) := none
  error : Option (List Char) := none
  original_length : Option Nat := none
  deriving DecidableEq

/-- The `ModelResponse` dataclass (the wall-clock `processing_time` field is
not modelled). -/
structure ModelResponse where
  content : List Char
  confidence : ℚ
  metadata : Metadata
  deriving DecidableEq

/-- Which of the load attempts in `_load_models` succeed.  The
language-detection model is never attempted (its block is disabled in
the source), so it has no outcome. -/
structure LoadOutcomes where
  embedding : Bool
  summarizer : Bool
  qa : Bool
  classifier : Bool
  deriving DecidableEq

/-- The `models_loaded` capability flags after construction. -/
structure ModelsLoaded where
  embedding : Bool
  summarizer : Bool
  qa : Bool
  classifier : Bool
  lang_detector : Bool
  deriving DecidableEq

/-- Embeds `AIModelManager._load_models`: every failed load only clears its
flag (`lang_detector` is always cleared); the constructor raises exactly
when the embedding model failed to load. -/
def load_models (o : LoadOutcomes) : Except (List Char) ModelsLoaded :=
  let flags : ModelsLoaded := ⟨o.embedding, o.summarizer, o.qa, o.classifier, false⟩
  if flags.embedding = false then
    .error (strL "Essential embedding model could not be loaded")
  else .ok flags

/-- A summarization primitive: one `self.summarizer(chunk, max_length,
min_length)` call, returning `result[0]['summary_text']` or raising. -/
abbrev SummPrim := List Char → Nat → Nat → Except (List Char) (List Char)

/-- Embeds `[l[i:i+win] for i in range(0, len(l), step)]`, written with a fuel
argument so that it is structurally recursive (`fuel ≥ l.length` makes
the fuel irrelevant for positive `step`; the wrappers below pass
`l.length`). -/
def windowsAux (win step : Nat) : Nat → List Char → List (List Char)
  | 0, _ => []
  | _ + 1, [] => []
  | fuel + 1, l => l.take win :: windowsAux win step fuel (l.drop step)

/-- Embeds `[text[i:i+n] for i in range(0, len(text), n)]`. -/
def chunksOf (n : Nat) (l : List Char) : List (List Char) :=
  windowsAux n n l.length l

/-- Embeds `' '.join(summaries)`. -/
def joinSpace (ss : List (List Char)) : List Char := joinL (strL " ") ss

/-- The per-chunk loop of `summarize_text`, paired with the number of
primitive calls it makes: each chunk is summarized with per-chunk
targets `max_length // n` and `min_length // n` where `n` is the chunk
count; an exception from any chunk aborts the loop (re-raised to the
enclosing `try`). -/
def runChunks (f : SummPrim) (maxL minL n : Nat) :
    List (List Char) → Except (List Char) (List (List Char)) × Nat
  | [] => (.ok [], 0)
  | c :: cs =>
    match f c (maxL / n) (minL / n) with
    | .error e => (.error e, 1)
    | .ok s =>
      match runChunks f maxL minL n cs with
      | (.error e, k) => (.error e, k + 1)
      | (.ok rest, k) => (.ok (s :: rest), k + 1)

/-- The `try`-block of `summarize_text`, paired with the number of
primitive invocations: above the 1000-character budget the text is
chunked, chunk summaries are joined with spaces, and one extra pass runs
iff the joined summary exceeds `max_length * 2`; within budget a single
direct call is made. -/
def summarize_core (f : SummPrim) (text : List Char) (maxL minL : Nat) :
    Except (List Char) (List Char) × Nat :=
  if 1000 < text.length then
    match runChunks f maxL minL (chunksOf 1000 text).length (chunksOf 1000 text) with
    | (.error e, k) => (.error e, k)
    | (.ok summaries, k) =>
      if maxL * 2 < (joinSpace summaries).length then (f (joinSpace summaries) maxL minL, k + 1)
      else (.ok (joinSpace summaries), k)
  else (f text maxL minL, 1)

/-- Embeds `AIModelManager.summarize_text`: the fallback response when the
summarizer never loaded, otherwise the chunked `try`-block with the
error response of the `except` clause. -/
def summarize_text (summarizer : Option SummPrim) (text : List Char)
    (maxL minL : Nat) (language : String) : ModelResponse :=
  match summarizer with
  | none =>
    { content := strL "Summary unavailable (model not loaded). Text preview: " ++
        text.take 200 ++ strL "..."
      confidence := 0
      metadata := { fallback := some true, language := some language } }
  | some f =>
    match (summarize_core f text maxL minL).1 with
    | .ok s =>
      { content := s
        confidence := 8 / 10
        metadata := { language := some language, original_length := some text.length } }
    | .error e =>
      { content := strL "Error generating summary: " ++ e
        confidence := 0
        metadata := { error := some e } }

/-- One `self.qa_model(question=..., context=...)` output. -/
structure QAResult where
  answer : List Char
  score : ℚ
  deriving DecidableEq

/-- Embeds `[context[i:i+win] for i in range(0, len(context), stride)]`. -/
def slidingWindows (win stride : Nat) (l : List Char) : List (List Char) :=
  windowsAux win stride l.length l

/-- The best-answer loop of `answer_question`: only a strictly better
score replaces the running best, so ties keep the earliest window. -/
def qaLoop (f : List Char → List Char → QAResult) (q : List Char) :
    List (List Char) → Option QAResult → ℚ → Option QAResult × ℚ
  | [], best, bs => (best, bs)
  | c :: cs, best, bs =>
    if bs < (f q c).score then qaLoop f q cs (some (f q c)) (f q c).score
    else qaLoop f q cs best bs

/-- The overlapping windows `answer_question` builds for a long context
(window 2000, stride `2000 // 2 = 1000`). -/
def qaWindows (ctx : List Char) : List (List Char) := slidingWindows 2000 1000 ctx

/-- Embeds `AIModelManager.answer_question` (the QA primitive is a parameter;
`none` embeds the not-loaded fallback). -/
def answer_question (qa : Option (List Char → List Char → QAResult))
    (question ctx : List Char) (language : String) : ModelResponse :=
  match qa with
  | none =>
    { content := strL "Question answering unavailable (model not loaded). Based on the context, here's relevant text: " ++
        ctx.take 300 ++ strL "..."
      confidence := 0
      metadata := { fallback := some true, question := some question, language := some language } }
  | some f =>
    if 2000 < ctx.length then
      match qaLoop f question (qaWindows ctx) none 0 with
      | (some r, bs) =>
        { content := r.answer
          confidence := bs
          metadata := { question := some question, language := some language } }
      | (none, _) =>
        { content := strL "No answer found"
          confidence := 0
          metadata := { question := some question, language := some language } }
    else
      { content := (f question ctx).answer
        confidence := (f question ctx).score
        metadata := { question := some question, language := some language } }

/-- The dict `analyze_sentiment` returns. -/
structure SentimentResult where
  sentiment : String
  confidence : ℚ
  analysis : String
  error : Option (List Char) := none
  deriving DecidableEq

/-- Embeds `AIModelManager.analyze_sentiment`: the classifier (one
`self.classifier(...)` call yielding `result[0]`'s label and score, or
raising) is always invoked on `text[:500]`. -/
def analyze_sentiment (classifier : List Char → Except (List Char) (String × ℚ))
    (text : List Char) : SentimentResult :=
  match classifier (text.take 500) with
  | .ok lr =>
    { sentiment := lr.1, confidence := lr.2, analysis := "multilingual_sentiment" }
  | .error e =>
    { sentiment := "neutral", confidence := 0, analysis := "error", error := some e }

/-- Embeds `re.split(r'[.!?]+', text)` followed by strip and blank filtering,
as in `extract_key_phrases` (splitting at each terminator instead of at
runs only inserts blank pieces that the filter removes). -/
def splitSentences (text : List Char) : List (List Char) :=
  ((splitP (fun c => c == '.' || c == '!' || c == '?') text).map trimL).filter
    (fun s => s ≠ [])

/-- Index comparison modelling `np.argsort` on the mean-score vector:
ascending by score, ties ordered by index (numpy's tie order for its
default sort is unspecified; any total refinement models it). -/
def scoreRel (scores : List ℚ) (i j : Nat) : Prop :=
  scores.getD i 0 < scores.getD j 0 ∨ (scores.getD i 0 = scores.getD j 0 ∧ i ≤ j)

instance scoreRelDec (scores : List ℚ) : DecidableRel (scoreRel scores) := fun i j => by
  unfold scoreRel
  infer_instance

/-- Embeds `np.argsort(mean_scores)`. -/
def argsortAsc (scores : List ℚ) : List Nat :=
  List.insertionSort (scoreRel scores) (List.range scores.length)

/-- Python `arr[-k:]` (`[-0:]` is the whole array). -/
def pyLastK (k : Nat) (l : List Nat) : List Nat :=
  if k = 0 then l else l.drop (l.length - k)

/-- Embeds `np.mean(tfidf_matrix.toarray(), axis=0)`. -/
def colMeans (rows : List (List ℚ)) (cols : Nat) : List ℚ :=
  (List.range cols).map (fun j => (rows.map (fun r => r.getD j 0)).sum / (rows.length : ℚ))

/-- Embeds `np.argsort(mean_scores)[-top_k:][::-1]` filtered to positive
scores. -/
def topKIdx (scores : List ℚ) (k : Nat) : List Nat :=
  (pyLastK k (argsortAsc scores)).reverse.filter (fun i => decide (0 < scores.getD i 0))

/-- Embeds `[feature_names[i] for i in top_indices if mean_scores[i] > 0]`. -/
def topKPhrases (features : List (List Char)) (scores : List ℚ) (k : Nat) :
    List (List Char) :=
  (topKIdx scores k).map (fun i => features.getD i [])

/-- Embeds `AIModelManager.extract_key_phrases`.  sklearn's
`TfidfVectorizer.fit_transform` plus `get_feature_names_out` is the
parameter `vec`: the bounded-vocabulary feature names and the
sentence-by-feature score matrix, or a raised exception (for example the
empty-vocabulary error); any exception inside the `try` yields `[]`. -/
def extract_key_phrases
    (vec : List (List Char) → Except (List Char) (List (List Char) × List (List ℚ)))
    (text : List Char) (top_k : Nat) : List (List Char) :=
  if (splitSentences text).length < 2 then
    if text ≠ [] then [text.take 50] else []
  else
    match vec (splitSentences text) with
    | .error _ => []
    | .ok fr => topKPhrases fr.1 (colMeans fr.2 fr.1.length) top_k

/-! ## Supporting lemmas about the AI layer -/

lemma windowsAux_nil (win step : Nat) : ∀ fuel, windowsAux win step fuel [] = [] := by
  intro fuel
  cases fuel <;> rfl

lemma windowsAux_fuel (win step : Nat) (hstep : step ≠ 0) :
    ∀ f1 f2 (l : List Char), l.length ≤ f1 → l.length ≤ f2 →
      windowsAux win step f1 l = windowsAux win step f2 l := by
  intro f1
  induction f1 with
  | zero =>
    intro f2 l hl1 _
    rw [List.length_eq_zero.mp (Nat.le_zero.mp hl1)]
    exact (windowsAux_nil win step f2).symm
  | succ f1' ih =>
    intro f2 l hl1 hl2
    cases l with
    | nil => rw [windowsAux_nil, windowsAux_nil]
    | cons c cs =>
      cases f2 with
      | zero => exact absurd hl2 (by simp)
      | succ f2' =>
        show (c :: cs).take win :: windowsAux win step f1' ((c :: cs).drop step) =
          (c :: cs).take win :: windowsAux win step f2' ((c :: cs).drop step)
        have hdl : ((c :: cs).drop step).length ≤ f1' := by
          rw [List.length_drop, List.length_cons]
          simp only [List.length_cons] at hl1
          omega
        have hdl2 : ((c :: cs).drop step).length ≤ f2' := by
          rw [List.length_drop, List.length_cons]
          simp only [List.length_cons] at hl2
          omega
        rw [ih f2' _ hdl hdl2]

lemma slidingWindows_cons (win step : Nat) (hstep : step ≠ 0) (l : List Char)
    (hl : l ≠ []) :
    slidingWindows win step l = l.take win :: slidingWindows win step (l.drop step) := by
  obtain ⟨c, cs, rfl⟩ := List.exists_cons_of_ne_nil hl
  show windowsAux win step ((c :: cs).length) (c :: cs) = _
  have hlen : (c :: cs).length = cs.length + 1 := by simp
  rw [hlen]
  show (c :: cs).take win :: windowsAux win step cs.length ((c :: cs).drop step) = _
  unfold slidingWindows
  rw [windowsAux_fuel win step hstep cs.length ((c :: cs).drop step).length _
    (by rw [List.length_drop]; simp; omega) le_rfl]

lemma chunksOf_eq_slidingWindows (n : Nat) (l : List Char) :
    chunksOf n l = slidingWindows n n l := rfl

lemma chunksOf_cons (n : Nat) (hn : n ≠ 0) (l : List Char) (hl : l ≠ []) :
    chunksOf n l = l.take n :: chunksOf n (l.drop n) := by
  rw [chunksOf_eq_slidingWindows, chunksOf_eq_slidingWindows]
  exact slidingWindows_cons n n hn l hl

lemma chunksOf_flatten (n : Nat) (hn : n ≠ 0) (l : List Char) :
    (chunksOf n l).flatten = l := by
  have key : ∀ N (l : List Char), l.length ≤ N → (chunksOf n l).flatten = l := by
    intro N
    induction N with
    | zero =>
      intro l hl
      rw [List.length_eq_zero.mp (Nat.le_zero.mp hl)]
      rfl
    | succ N' ih =>
      intro l hl
      by_cases hnil : l = []
      · rw [hnil]; rfl
      · rw [chunksOf_cons n hn l hnil, List.flatten_cons,
          ih (l.drop n) (by rw [List.length_drop]; omega)]
        exact List.take_append_drop n l
  exact key l.length l le_rfl

lemma chunksOf_mem (n : Nat) (hn : n ≠ 0) (l c : List Char) (hc : c ∈ chunksOf n l) :
    c ≠ [] ∧ c.length ≤ n := by
  have key : ∀ N (l : List Char), l.length ≤ N → ∀ c ∈ chunksOf n l, c ≠ [] ∧ c.length ≤ n := by
    intro N
    induction N with
    | zero =>
      intro l hl c hc
      rw [List.length_eq_zero.mp (Nat.le_zero.mp hl)] at hc
      exact absurd hc (by simp [chunksOf, windowsAux])
    | succ N' ih =>
      intro l hl c hc
      by_cases hnil : l = []
      · rw [hnil] at hc
        exact absurd hc (by simp [chunksOf, windowsAux])
      · rw [chunksOf_cons n hn l hnil] at hc
        rcases List.mem_cons.mp hc with rfl | hmem
        · constructor
          · simp only [Ne, List.take_eq_nil_iff, not_or]
            exact ⟨hn, hnil⟩
          · rw [List.length_take]
            exact min_le_left _ _
        · exact ih (l.drop n) (by rw [List.length_drop]; omega) c hmem
  exact key l.length l le_rfl c hc

lemma slidingWindows_getQ (win step : Nat) (hstep : step ≠ 0) :
    ∀ (l : List Char) (i : Nat), i < (slidingWindows win step l).length →
      (slidingWindows win step l).get? i = some ((l.drop (step * i)).take win) := by
  have key : ∀ N (l : List Char), l.length ≤ N → ∀ (i : Nat),
      i < (slidingWindows win step l).length →
      (slidingWindows win step l).get? i = some ((l.drop (step * i)).take win) := by
    intro N
    induction N with
    | zero =>
      intro l hl i hi
      have hnil : l = [] := List.length_eq_zero.mp (Nat.le_zero.mp hl)
      subst hnil
      exact absurd hi (by simp [slidingWindows, windowsAux])
    | succ N' ih =>
      intro l hl i hi
      by_cases hnil : l = []
      · subst hnil
        exact absurd hi (by simp [slidingWindows, windowsAux])
      · rw [slidingWindows_cons win step hstep l hnil]
        rcases i with _ | i'
        · rw [Nat.mul_zero, List.drop_zero]
          rfl
        · have hi' : i' < (slidingWindows win step (l.drop step)).length := by
            rw [slidingWindows_cons win step hstep l hnil] at hi
            simpa using hi
          show (slidingWindows win step (l.drop step)).get? i' = _
          rw [ih (l.drop step) (by rw [List.length_drop]; omega) i' hi', List.drop_drop]
          congr 2
          ring_nf
  exact fun l => key l.length l le_rfl

/-- C6. Orchestrator construction raises exactly when the embedding
primitive fails to load; a failed load of any other primitive only
clears that capability's flag; and a summarize or answer call on a
disabled primitive returns the well-formed fallback `ModelResponse`:
confidence 0, `metadata.fallback = true`, content derived from a
200- resp. 300-character preview of the input. -/
theorem load_failure_degrades_gracefully :
    (∀ o : LoadOutcomes, (∃ m, load_models o = .error m) ↔ o.embedding = false) ∧
    (∀ o : LoadOutcomes, o.embedding = true →
      load_models o = .ok ⟨true, o.summarizer, o.qa, o.classifier, false⟩) ∧
    (∀ text maxL minL lang,
      (summarize_text none text maxL minL lang).confidence = 0 ∧
      (summarize_text none text maxL minL lang).metadata.fallback = some true ∧
      (summarize_text none text maxL minL lang).content =
        strL "Summary unavailable (model not loaded). Text preview: " ++
          text.take 200 ++ strL "...") ∧
    (∀ q ctx lang,
      (answer_question none q ctx lang).confidence = 0 ∧
      (answer_question none q ctx lang).metadata.fallback = some true ∧
      (answer_question none q ctx lang).content =
        strL "Question answering unavailable (model not loaded). Based on the context, here's relevant text: " ++
          ctx.take 300 ++ strL "...") := by
  refine ⟨?_, ?_, ?_, ?_⟩
  · intro o
    cases h : o.embedding <;> simp [load_models, h]
  · intro o h
    simp [load_models, h]
  · intro text maxL minL lang
    exact ⟨rfl, rfl, rfl⟩
  · intro q ctx lang
    exact ⟨rfl, rfl, rfl⟩

/-- Witness for C6: with only the embedding load succeeding,
construction succeeds and every other capability flag is cleared. -/
theorem load_failure_degrades_gracefully_witness :
    load_models ⟨true, false, false, false⟩ = .ok ⟨true, false, false, false, false⟩ :=
  load_failure_degrades_gracefully.2.1 ⟨true, false, false, false⟩ rfl

/-- C10. `analyze_sentiment` depends only on the first 500
characters of its input: the classifier is invoked on the 500-character
truncation, so inputs agreeing there produce identical results. -/
theorem analyze_sentiment_depends_on_first_500
    (classifier : List Char → Except (List Char) (String × ℚ)) (t1 t2 : List Char)
    (h : t1.take 500 = t2.take 500) :
    analyze_sentiment classifier t1 = analyze_sentiment classifier t2 := by
  unfold analyze_sentiment
  rw [h]

/-- Witness for C10: two concrete 501-character inputs that differ only
in their last character get the same sentiment result. -/
theorem analyze_sentiment_depends_on_first_500_witness :
    (List.replicate 500 'a' ++ ['b']).take 500 = (List.replicate 500 'a' ++ ['c']).take 500 ∧
    analyze_sentiment (fun _ => .ok ("positive", 1)) (List.replicate 500 'a' ++ ['b']) =
      analyze_sentiment (fun _ => .ok ("positive", 1)) (List.replicate 500 'a' ++ ['c']) := by
  have hlen : (List.replicate 500 'a').length = 500 := List.length_replicate _ _
  have h : (List.replicate 500 'a' ++ ['b']).take 500 =
      (List.replicate 500 'a' ++ ['c']).take 500 := by
    rw [List.take_append_of_le_length (le_of_eq hlen.symm),
      List.take_append_of_le_length (le_of_eq hlen.symm)]
  exact ⟨h, analyze_sentiment_depends_on_first_500 _ _ _ h⟩

/-- A summarization primitive that never raises, wrapping a pure
per-call result; used to state what the chunking loop does when the
model behaves. -/
def summPure (g : List Char → Nat → Nat → List Char) : SummPrim :=
  fun c a b => .ok (g c a b)

/-- The chunk summaries of `summarize_text` above budget: each chunk is
summarized with targets `max_length // len(chunks)` and
`min_length // len(chunks)`. -/
def chunkSummaries (g : List Char → Nat → Nat → List Char) (text : List Char)
    (maxL minL : Nat) : List (List Char) :=
  (chunksOf 1000 text).map
    (fun c => g c (maxL / (chunksOf 1000 text).length) (minL / (chunksOf 1000 text).length))

/-- Embeds `combined_summary = ' '.join(summaries)`. -/
def combinedSummary (g : List Char → Nat → Nat → List Char) (text : List Char)
    (maxL minL : Nat) : List Char :=
  joinSpace (chunkSummaries g text maxL minL)

lemma runChunks_pure (g : List Char → Nat → Nat → List Char) (maxL minL n : Nat) :
    ∀ cs, runChunks (summPure g) maxL minL n cs =
      (.ok (cs.map (fun c => g c (maxL / n) (minL / n))), cs.length) := by
  intro cs
  induction cs with
  | nil => rfl
  | cons c cs ih => simp only [runChunks, summPure, ih, List.map_cons, List.length_cons]

/-- C2. Above the fixed 1000-character budget, `summarize_text`
splits the input into consecutive non-overlapping chunks of at most the
budget size (they concatenate back to the input), summarizes each chunk
with a per-chunk target of the overall target divided by the chunk
count, joins the chunk summaries, and runs exactly one extra pass over
the joined summary iff its length exceeds twice the target — so the
N-chunk run makes N+1 primitive calls when the extra pass fires and N
otherwise, never more than N+1.  Within budget it degrades to a single
direct call with the same response shape. -/
theorem summarize_text_chunking (g : List Char → Nat → Nat → List Char)
    (text : List Char) (maxL minL : Nat) (lang : String) :
    (1000 < text.length →
      (chunksOf 1000 text).flatten = text ∧
      (∀ c ∈ chunksOf 1000 text, c ≠ [] ∧ c.length ≤ 1000) ∧
      summarize_core (summPure g) text maxL minL =
        (if maxL * 2 < (combinedSummary g text maxL minL).length then
          (.ok (g (combinedSummary g text maxL minL) maxL minL),
            (chunksOf 1000 text).length + 1)
         else
          (.ok (combinedSummary g text maxL minL), (chunksOf 1000 text).length)) ∧
      (summarize_core (summPure g) text maxL minL).2 ≤ (chunksOf 1000 text).length + 1) ∧
    (text.length ≤ 1000 →
      summarize_core (summPure g) text maxL minL = (.ok (g text maxL minL), 1) ∧
      summarize_text (some (summPure g)) text maxL minL lang =
        { content := g text maxL minL
          confidence := 8 / 10
          metadata := { language := some lang, original_length := some text.length } }) := by
  constructor
  · intro h
    have hcore : summarize_core (summPure g) text maxL minL =
        (if maxL * 2 < (combinedSummary g text maxL minL).length then
          (.ok (g (combinedSummary g text maxL minL) maxL minL),
            (chunksOf 1000 text).length + 1)
         else
          (.ok (combinedSummary g text maxL minL), (chunksOf 1000 text).length)) := by
      unfold summarize_core
      rw [if_pos h, runChunks_pure]
      rfl
    refine ⟨chunksOf_flatten 1000 (by norm_num) text,
      fun c hc => chunksOf_mem 1000 (by norm_num) text c hc, hcore, ?_⟩
    rw [hcore]
    split_ifs <;> simp
  · intro h
    have hnot : ¬ 1000 < text.length := not_lt.mpr h
    have hcore : summarize_core (summPure g) text maxL minL = (.ok (g text maxL minL), 1) := by
      unfold summarize_core
      rw [if_neg hnot]
      rfl
    refine ⟨hcore, ?_⟩
    unfold summarize_text
    dsimp only
    rw [hcore]

/-- A concrete summarization primitive returning the first character of
its input; used by witnesses. -/
def summHeadPrim : List Char → Nat → Nat → List Char := fun c _ _ => c.take 1

set_option maxRecDepth 100000 in
/-- Witness for C2: a 1001-character input splits into 2 chunks, the
joined per-chunk summaries (`"a a"`) exceed twice the target 1, so one
extra pass fires and exactly 3 primitive calls are made. -/
theorem summarize_text_chunking_witness :
    1000 < (List.replicate 1001 'a').length ∧
    summarize_core (summPure summHeadPrim) (List.replicate 1001 'a') 1 0 =
      (Except.ok ['a'], 3) := by
  have hlen : 1000 < (List.replicate 1001 'a').length := by
    rw [List.length_replicate]
    norm_num
  have h := (summarize_text_chunking summHeadPrim (List.replicate 1001 'a') 1 0 "en").1 hlen
  refine ⟨hlen, ?_⟩
  rw [h.2.2.1]
  decide

/-- The running maximum of window scores, starting from `bs`
(`best_score` starts at 0 in the source). -/
def maxScore (f : List Char → List Char → QAResult) (q : List Char)
    (cs : List (List Char)) (bs : ℚ) : ℚ :=
  cs.foldl (fun m c => max m (f q c).score) bs

lemma maxScore_nil (f : List Char → List Char → QAResult) (q : List Char) (bs : ℚ) :
    maxScore f q [] bs = bs := rfl

lemma maxScore_cons (f : List Char → List Char → QAResult) (q c : List Char)
    (cs : List (List Char)) (bs : ℚ) :
    maxScore f q (c :: cs) bs = maxScore f q cs (max bs (f q c).score) := rfl

lemma le_maxScore (f : List Char → List Char → QAResult) (q : List Char) :
    ∀ (cs : List (List Char)) (bs : ℚ), bs ≤ maxScore f q cs bs := by
  intro cs
  induction cs with
  | nil => intro bs; exact le_rfl
  | cons c cs ih =>
    intro bs
    rw [maxScore_cons]
    exact le_trans (le_max_left _ _) (ih _)

lemma maxScore_le (f : List Char → List Char → QAResult) (q : List Char) :
    ∀ (cs : List (List Char)) (bs b : ℚ), bs ≤ b → (∀ c ∈ cs, (f q c).score ≤ b) →
      maxScore f q cs bs ≤ b := by
  intro cs
  induction cs with
  | nil => intro bs b hb _; exact hb
  | cons c cs ih =>
    intro bs b hb hsc
    rw [maxScore_cons]
    exact ih _ b (max_le hb (hsc c (List.mem_cons_self c cs)))
      (fun c' hc' => hsc c' (List.mem_cons_of_mem _ hc'))

lemma score_le_maxScore (f : List Char → List Char → QAResult) (q : List Char) :
    ∀ (cs : List (List Char)) (bs : ℚ) (c : List Char), c ∈ cs →
      (f q c).score ≤ maxScore f q cs bs := by
  intro cs
  induction cs with
  | nil => intro bs c hc; exact absurd hc (List.not_mem_nil c)
  | cons c' cs ih =>
    intro bs c hc
    rw [maxScore_cons]
    rcases List.mem_cons.mp hc with rfl | hmem
    · exact le_trans (le_max_right _ _) (le_maxScore f q cs _)
    · exact ih _ c hmem

lemma maxScore_attained (f : List Char → List Char → QAResult) (q : List Char) :
    ∀ (cs : List (List Char)) (bs : ℚ), maxScore f q cs bs = bs ∨
      ∃ c ∈ cs, (f q c).score = maxScore f q cs bs := by
  intro cs
  induction cs with
  | nil => intro bs; exact Or.inl rfl
  | cons c cs ih =>
    intro bs
    rw [maxScore_cons]
    rcases ih (max bs (f q c).score) with h | ⟨c', hc', hc'eq⟩
    · rw [h]
      rcases max_cases bs (f q c).score with ⟨hmax, _⟩ | ⟨hmax, _⟩
      · exact Or.inl hmax
      · exact Or.inr ⟨c, List.mem_cons_self c cs, hmax.symm⟩
    · exact Or.inr ⟨c', List.mem_cons_of_mem _ hc', hc'eq⟩

/-- What `answer_question`'s best-answer loop computes: the final score
is the running maximum over all windows, and the final best answer is
the QA result of the *first* window attaining that maximum when some
window strictly beats the initial score, otherwise the initial best. -/
lemma qaLoop_spec (f : List Char → List Char → QAResult) (q : List Char) :
    ∀ (cs : List (List Char)) (best : Option QAResult) (bs : ℚ),
      qaLoop f q cs best bs =
        (if bs < maxScore f q cs bs then
          (cs.find? (fun c => decide ((f q c).score = maxScore f q cs bs))).map
            (fun c => f q c)
         else best,
         maxScore f q cs bs) := by
  intro cs
  induction cs with
  | nil =>
    intro best bs
    rw [maxScore_nil]
    simp [qaLoop]
  | cons c cs ih =>
    intro best bs
    rw [maxScore_cons]
    by_cases hbs : bs < (f q c).score
    · have hmax : max bs (f q c).score = (f q c).score := max_eq_right (le_of_lt hbs)
      rw [hmax]
      have hloop : qaLoop f q (c :: cs) best bs =
          qaLoop f q cs (some (f q c)) (f q c).score := by
        simp [qaLoop, hbs]
      rw [hloop, ih]
      have hM := le_maxScore f q cs (f q c).score
      have hbM : bs < maxScore f q cs (f q c).score := lt_of_lt_of_le hbs hM
      rw [if_pos hbM]
      by_cases hsM : (f q c).score < maxScore f q cs (f q c).score
      · rw [if_pos hsM]
        have hfind : List.find?
            (fun x => decide ((f q x).score = maxScore f q cs (f q c).score)) (c :: cs) =
            List.find? (fun x => decide ((f q x).score = maxScore f q cs (f q c).score)) cs :=
          List.find?_cons_of_neg _ (by simp [ne_of_lt hsM])
        rw [hfind]
      · have hseq : maxScore f q cs (f q c).score = (f q c).score :=
          le_antisymm (not_lt.mp hsM) hM
        rw [if_neg hsM]
        have hfind : List.find?
            (fun x => decide ((f q x).score = maxScore f q cs (f q c).score)) (c :: cs) =
            some c :=
          List.find?_cons_of_pos _ (by simp [hseq])
        rw [hfind]
        rfl
    · have hmax : max bs (f q c).score = bs := max_eq_left (not_lt.mp hbs)
      rw [hmax]
      have hloop : qaLoop f q (c :: cs) best bs = qaLoop f q cs best bs := by
        simp [qaLoop, hbs]
      rw [hloop, ih]
      by_cases hbM : bs < maxScore f q cs bs
      · rw [if_pos hbM, if_pos hbM]
        have hfind : List.find? (fun x => decide ((f q x).score = maxScore f q cs bs))
            (c :: cs) =
            List.find? (fun x => decide ((f q x).score = maxScore f q cs bs)) cs :=
          List.find?_cons_of_neg _
            (by simp [ne_of_lt (lt_of_le_of_lt (not_lt.mp hbs) hbM)])
        rw [hfind]
      · rw [if_neg hbM, if_neg hbM]

/-- The maximum score found across all windows of a long context
(the loop starts from `best_score = 0`). -/
def qaMax (f : List Char → List Char → QAResult) (q ctx : List Char) : ℚ :=
  maxScore f q (qaWindows ctx) 0

/-- The first window attaining the maximum score. -/
def qaBest (f : List Char → List Char → QAResult) (q ctx : List Char) :
    Option (List Char) :=
  (qaWindows ctx).find? (fun c => decide ((f q c).score = qaMax f q ctx))

/-- C3. For a context above the 2000-character window size,
`answer_question` builds overlapping windows advancing by 1000 (half the
window size): window `i` is `context[1000*i : 1000*i + 2000]`.  It runs
the QA primitive on every window; if some window scores positively it
returns the answer of the first window attaining the maximum score with
that maximum as confidence (ties go to the earliest window), and if no
window scores positively it returns the deterministic placeholder
response with confidence 0 instead of raising. -/
theorem answer_question_sliding_window (f : List Char → List Char → QAResult)
    (question ctx : List Char) (lang : String) (h : 2000 < ctx.length) :
    (∀ i, i < (qaWindows ctx).length →
      (qaWindows ctx).get? i = some ((ctx.drop (1000 * i)).take 2000)) ∧
    (0 < qaMax f question ctx → ∃ w, qaBest f question ctx = some w ∧
      answer_question (some f) question ctx lang =
        { content := (f question w).answer
          confidence := qaMax f question ctx
          metadata := { question := some question, language := some lang } }) ∧
    (qaMax f question ctx ≤ 0 →
      answer_question (some f) question ctx lang =
        { content := strL "No answer found"
          confidence := 0
          metadata := { question := some question, language := some lang } }) := by
  refine ⟨fun i hi => slidingWindows_getQ 2000 1000 (by norm_num) ctx i hi, ?_, ?_⟩
  · intro hpos
    have hspec := qaLoop_spec f question (qaWindows ctx) none 0
    have hif : (0 : ℚ) < maxScore f question (qaWindows ctx) 0 := hpos
    rw [if_pos hif] at hspec
    rcases maxScore_attained f question (qaWindows ctx) 0 with h0 | ⟨c, hc, hceq⟩
    · rw [h0] at hif
      exact absurd hif (lt_irrefl 0)
    · have hfind : ∃ w, (qaWindows ctx).find?
          (fun c => decide ((f question c).score = qaMax f question ctx)) = some w := by
        rw [← Option.isSome_iff_exists, List.find?_isSome]
        exact ⟨c, hc, by simp [qaMax, hceq]⟩
      obtain ⟨w, hw⟩ := hfind
      refine ⟨w, hw, ?_⟩
      unfold answer_question
      dsimp only
      rw [if_pos h]
      have hw' : (qaWindows ctx).find?
          (fun c => decide ((f question c).score = maxScore f question (qaWindows ctx) 0)) =
          some w := hw
      rw [hspec, hw']
      rfl
  · intro hle
    have hspec := qaLoop_spec f question (qaWindows ctx) none 0
    have hif : ¬ (0 : ℚ) < maxScore f question (qaWindows ctx) 0 := not_lt.mpr hle
    rw [if_neg hif] at hspec
    unfold answer_question
    dsimp only
    rw [if_pos h, hspec]

/-- A concrete QA primitive answering `"yes"` with score 1 on every
window; used by witnesses. -/
def qaConstPrim : List Char → List Char → QAResult := fun _ _ => ⟨strL "yes", 1⟩

/-- Witness for C3: a 2001-character context produces three windows, the
constant primitive scores 1 on each, and the earliest window's answer is
returned with confidence 1. -/
theorem answer_question_sliding_window_witness :
    2000 < (List.replicate 2001 'a').length ∧
    answer_question (some qaConstPrim) [] (List.replicate 2001 'a') "en" =
      { content := strL "yes"
        confidence := 1
        metadata := { question := some [], language := some "en" } } := by
  have hlen : 2000 < (List.replicate 2001 'a').length := by
    rw [List.length_replicate]
    norm_num
  refine ⟨hlen, ?_⟩
  have hthm := (answer_question_sliding_window qaConstPrim [] (List.replicate 2001 'a')
    "en" hlen).2.1
  have hcons := slidingWindows_cons 2000 1000 (by norm_num) (List.replicate 2001 'a')
    (List.ne_nil_of_length_pos (by rw [List.length_replicate]; norm_num))
  have hmem : (List.replicate 2001 'a').take 2000 ∈ qaWindows (List.replicate 2001 'a') := by
    show _ ∈ slidingWindows 2000 1000 (List.replicate 2001 'a')
    rw [hcons]
    exact List.mem_cons_self _ _
  have hub : qaMax qaConstPrim [] (List.replicate 2001 'a') ≤ 1 :=
    maxScore_le qaConstPrim [] _ 0 1 (by norm_num) (fun c _ => le_rfl)
  have hlb : (1 : ℚ) ≤ qaMax qaConstPrim [] (List.replicate 2001 'a') :=
    score_le_maxScore qaConstPrim [] _ 0 _ hmem
  have hq : qaMax qaConstPrim [] (List.replicate 2001 'a') = 1 := le_antisymm hub hlb
  obtain ⟨w, _, heq⟩ := hthm (by rw [hq]; norm_num)
  rw [heq, hq]
  rfl

instance scoreRelTotal (scores : List ℚ) : IsTotal Nat (scoreRel scores) := ⟨by
  intro i j
  rcases lt_trichotomy (scores.getD i 0) (scores.getD j 0) with h | h | h
  · exact Or.inl (Or.inl h)
  · rcases Nat.le_total i j with hij | hij
    · exact Or.inl (Or.inr ⟨h, hij⟩)
    · exact Or.inr (Or.inr ⟨h.symm, hij⟩)
  · exact Or.inr (Or.inl h)⟩

instance scoreRelTrans (scores : List ℚ) : IsTrans Nat (scoreRel scores) := ⟨by
  intro a b c hab hbc
  rcases hab with h1 | ⟨h1, h1'⟩ <;> rcases hbc with h2 | ⟨h2, h2'⟩
  · exact Or.inl (lt_trans h1 h2)
  · exact Or.inl (lt_of_lt_of_le h1 (le_of_eq h2))
  · exact Or.inl (lt_of_le_of_lt (le_of_eq h1) h2)
  · exact Or.inr ⟨h1.trans h2, le_trans h1' h2'⟩⟩

lemma argsortAsc_sorted (scores : List ℚ) :
    List.Sorted (scoreRel scores) (argsortAsc scores) :=
  List.sorted_insertionSort _ _

lemma argsortAsc_mem (scores : List ℚ) (j : Nat) :
    j ∈ argsortAsc scores ↔ j < scores.length := by
  rw [argsortAsc, (List.perm_insertionSort _ _).mem_iff, List.mem_range]

lemma pyLastK_sublist (k : Nat) (l : List Nat) : (pyLastK k l).Sublist l := by
  unfold pyLastK
  split_ifs
  · exact List.Sublist.refl l
  · exact List.drop_sublist _ l

/-- The top-K selection of `extract_key_phrases` picks at most K indices
(for positive K), all with positive mean score, in descending score
order, and no unselected index has a larger score than a selected one. -/
lemma topKIdx_props (scores : List ℚ) (k : Nat) :
    (∀ i ∈ topKIdx scores k, 0 < scores.getD i 0) ∧
    (0 < k → (topKIdx scores k).length ≤ k) ∧
    List.Pairwise (fun i j => scores.getD j 0 ≤ scores.getD i 0) (topKIdx scores k) ∧
    (∀ i ∈ topKIdx scores k, ∀ j < scores.length,
      j ∉ pyLastK k (argsortAsc scores) → scores.getD j 0 ≤ scores.getD i 0) := by
  refine ⟨?_, ?_, ?_, ?_⟩
  · intro i hi
    have := List.of_mem_filter hi
    simpa using this
  · intro hk
    unfold topKIdx pyLastK
    rw [if_neg (by omega)]
    have hle1 := List.length_filter_le (fun i => decide (0 < scores.getD i 0))
      ((argsortAsc scores).drop ((argsortAsc scores).length - k)).reverse
    have hle2 : ((argsortAsc scores).drop
        ((argsortAsc scores).length - k)).reverse.length ≤ k := by
      rw [List.length_reverse, List.length_drop]
      omega
    exact le_trans hle1 hle2
  · have h1 : List.Pairwise (scoreRel scores) (pyLastK k (argsortAsc scores)) :=
      List.Pairwise.sublist (pyLastK_sublist k (argsortAsc scores)) (argsortAsc_sorted scores)
    have h2 : List.Pairwise (fun i j => scoreRel scores j i)
        (pyLastK k (argsortAsc scores)).reverse := List.pairwise_reverse.mpr h1
    have h3 : List.Pairwise (fun i j => scoreRel scores j i) (topKIdx scores k) :=
      List.Pairwise.sublist (List.filter_sublist _) h2
    exact h3.imp (fun h => h.elim le_of_lt (fun he => le_of_eq he.1))
  · intro i hi j hj hnot
    have hik : i ∈ pyLastK k (argsortAsc scores) := by
      have := List.mem_of_mem_filter hi
      exact List.mem_reverse.mp this
    by_cases hk : k = 0
    · exfalso
      apply hnot
      unfold pyLastK
      rw [if_pos hk]
      exact (argsortAsc_mem scores j).mpr hj
    · have hsorted := argsortAsc_sorted scores
      have hsplit : (argsortAsc scores).take ((argsortAsc scores).length - k) ++
          (argsortAsc scores).drop ((argsortAsc scores).length - k) = argsortAsc scores :=
        List.take_append_drop _ _
      have hpair := hsorted
      rw [List.Sorted, ← hsplit, List.pairwise_append] at hpair
      have hjtake : j ∈ (argsortAsc scores).take ((argsortAsc scores).length - k) := by
        have hjmem : j ∈ argsortAsc scores := (argsortAsc_mem scores j).mpr hj
        rw [← hsplit] at hjmem
        rcases List.mem_append.mp hjmem with h | h
        · exact h
        · exfalso
          apply hnot
          unfold pyLastK
          rw [if_neg hk]
          exact h
      have hidrop : i ∈ (argsortAsc scores).drop ((argsortAsc scores).length - k) := by
        have := hik
        unfold pyLastK at this
        rw [if_neg hk] at this
        exact this
      exact (hpair.2.2 j hjtake i hidrop).elim le_of_lt (fun he => le_of_eq he.1)

/-- Counterexample to C9 as stated: the input `"hello"` has a single
sentence, yet `extract_key_phrases` returns the non-empty result
`[text[:50]]` rather than nothing. -/
theorem extract_key_phrases_single_sentence_not_empty :
    extract_key_phrases (fun _ => .error (strL "unused")) (strL "hello") 5 =
      [strL "hello"] ∧
    (splitSentences (strL "hello")).length = 1 ∧
    [strL "hello"] ≠ ([] : List (List Char)) :=
  ⟨rfl, rfl, by simp⟩

/-- C9 (amended). With fewer than two non-blank sentences,
`extract_key_phrases` returns the singleton `[text[:50]]` for non-empty
input and `[]` for empty input (not nothing); with at least two
sentences it returns `[]` on any vectorizer failure, and on success the
top-K features by mean score across sentences: at most K results (for
positive K), each with positive mean score, in descending score order,
and every unselected feature scores no higher than any selected one. -/
theorem extract_key_phrases_behaviour
    (vec : List (List Char) → Except (List Char) (List (List Char) × List (List ℚ)))
    (text : List Char) (k : Nat) :
    ((splitSentences text).length < 2 →
      extract_key_phrases vec text k = if text ≠ [] then [text.take 50] else []) ∧
    (2 ≤ (splitSentences text).length →
      (∀ m, vec (splitSentences text) = .error m →
        extract_key_phrases vec text k = []) ∧
      (∀ features rows, vec (splitSentences text) = .ok (features, rows) →
        extract_key_phrases vec text k =
          topKPhrases features (colMeans rows features.length) k ∧
        (0 < k → (extract_key_phrases vec text k).length ≤ k) ∧
        (∀ i ∈ topKIdx (colMeans rows features.length) k,
          0 < (colMeans rows features.length).getD i 0) ∧
        List.Pairwise
          (fun i j => (colMeans rows features.length).getD j 0 ≤
            (colMeans rows features.length).getD i 0)
          (topKIdx (colMeans rows features.length) k) ∧
        (∀ i ∈ topKIdx (colMeans rows features.length) k,
          ∀ j < (colMeans rows features.length).length,
            j ∉ pyLastK k (argsortAsc (colMeans rows features.length)) →
              (colMeans rows features.length).getD j 0 ≤
                (colMeans rows features.length).getD i 0))) := by
  constructor
  · intro h
    unfold extract_key_phrases
    rw [if_pos h]
  · intro h2
    have hnot : ¬ (splitSentences text).length < 2 := not_lt.mpr h2
    constructor
    · intro m hm
      unfold extract_key_phrases
      rw [if_neg hnot, hm]
    · intro features rows hok
      have heq : extract_key_phrases vec text k =
          topKPhrases features (colMeans rows features.length) k := by
        unfold extract_key_phrases
        rw [if_neg hnot, hok]
      obtain ⟨hp1, hp2, hp3, hp4⟩ := topKIdx_props (colMeans rows features.length) k
      refine ⟨heq, ?_, hp1, hp3, hp4⟩
      intro hk
      rw [heq]
      unfold topKPhrases
      rw [List.length_map]
      exact hp2 hk

/-- Witness for C9 (amended): on a two-sentence input whose vectorizer
raises, extraction returns the empty list. -/
theorem extract_key_phrases_behaviour_witness :
    2 ≤ (splitSentences (strL "Hi there. Bye now.")).length ∧
    extract_key_phrases (fun _ => Except.error (strL "boom"))
      (strL "Hi there. Bye now.") 5 = [] := by
  have h2 : 2 ≤ (splitSentences (strL "Hi there. Bye now.")).length := by decide
  exact ⟨h2, ((extract_key_phrases_behaviour (fun _ => Except.error (strL "boom"))
    (strL "Hi there. Bye now.") 5).2 h2).1 (strL "boom") rfl⟩

end PolyDoc
